import Mathlib

/-!
Shallow embedding of the Oracle-MCP client-side migration-session engine:

* Tabular Decoder: `parseCSV` from `src/unnamed/part_000` (the csvParser module).
* Evidence Locator: the three-tier highlighting logic of
  `src/frontend/src/components/DocumentSidebar.jsx` (`getFlexibleRegex` and the
  highlighting effect).
* Session Stream Reducer: the stream de-framer of `handleRun`, the progress-log
  stage fold of `ProgressVisualizer`, and the iteration store of
  `src/frontend/src/App.jsx`.
* Reference Resolver: the `filename:context` split and shape check of the
  `Target Source` cell click handler and `handleViewDocument` in `App.jsx`.

JS strings are embedded as `List Char`.
-/

namespace OracleMCP

/-- Characters of a JS string. -/
abbrev Str : Type := List Char

/-- JS `String.startsWith`: `isPrefixL a b` holds when `a` starts `b`. -/
def isPrefixL : Str → Str → Bool
  | [], _ => true
  | _ :: _, [] => false
  | a :: as, b :: bs => a = b && isPrefixL as bs

/-- JS `String.includes`: `needle` occurs as a contiguous substring of `hay`. -/
def containsSub (needle hay : Str) : Bool :=
  hay.tails.any (isPrefixL needle)

/-- JS `String.trim` (both-ends whitespace strip; the JS whitespace set is the
Unicode one, which agrees with `Char.isWhitespace` on every character these
claims touch). -/
def trimL (s : Str) : Str :=
  ((s.dropWhile Char.isWhitespace).reverse.dropWhile Char.isWhitespace).reverse

/-! ## Tabular Decoder (`parseCSV`, src/unnamed/part_000) -/

/-- JS `field.replace(/""/g, '"')`: leftmost non-overlapping replacement of every
doubled quote by a single quote. -/
def replaceDD : Str → Str
  | '"' :: '"' :: rest => '"' :: replaceDD rest
  | c :: rest => c :: replaceDD rest
  | [] => []

/-- The per-field unquoting step of `parseLine`: if the field text starts and
ends with a quote, strip the outer pair and undouble inner quotes.  The
one-character field `"` is left unchanged, exactly as in the source, where
`'"'.substring(1, 0)` swaps its arguments back to `substring(0, 1)` and
returns `"` again. -/
def unquoteField (f : Str) : Str :=
  match f with
  | '"' :: rest =>
      if rest.getLast? = some '"' then replaceDD rest.dropLast else f
  | _ => f

/-- The character scan of `parseLine`: `cur` is the text accumulated since the
last cut (the source tracks it as `substring(start, i)`), `inQ` is the
`inQuotes` flag.  A quote toggles the flag, a comma outside quotes cuts a
field, everything else accumulates. -/
def parseLineAux (cur : Str) (inQ : Bool) : Str → List Str
  | [] => [unquoteField cur]
  | c :: rest =>
    if c = '"' then parseLineAux (cur ++ ['"']) (!inQ) rest
    else if c = ',' && !inQ then unquoteField cur :: parseLineAux [] false rest
    else parseLineAux (cur ++ [c]) inQ rest

/-- The `parseLine` helper of `parseCSV`. -/
def parseLine (line : Str) : List Str :=
  parseLineAux [] false line

/-- Helper for `csvText.split('\n')`. -/
def consHead (c : Char) : List Str → List Str
  | [] => [[c]]
  | h :: t => (c :: h) :: t

/-- Split a string on every newline character (JS `split('\n')`). -/
def splitNl : Str → List Str
  | [] => [[]]
  | c :: rest => if c = '\n' then [] :: splitNl rest else consHead c (splitNl rest)

/-- A parsed tabular dataset: ordered header names and positional rows.  Rows
are stored positionally aligned with `columns`; the source stores each row as
an object keyed by header name, which carries the same information whenever the
header names are distinct (the documented invariant). -/
structure Dataset where
  columns : List Str
  data : List (List Str)
deriving DecidableEq, Repr

/-- The decoder `parseCSV` (src/unnamed/part_000): split the text on newlines, drop lines
that are blank after trimming, parse the first surviving line as the header
row, and zip every later line positionally against the headers, with missing
values defaulting to the empty string (`values[i] || ""`). -/
def parseCSV (csvText : Str) : Dataset :=
  if csvText = [] then ⟨[], []⟩
  else
    match (splitNl csvText).filter (fun l => !(trimL l).isEmpty) with
    | [] => ⟨[], []⟩
    | header :: rest =>
      let headers := parseLine header
      let data := rest.map (fun line =>
        let values := parseLine line
        headers.mapIdx (fun i _ => values.getD i []))
      ⟨headers, data⟩

/-! ### A standard CSV renderer, used to state what the decoder decodes
correctly.  Fields are rendered quoted (with quotes doubled) whenever they
contain a quote or the delimiter; rows are joined by newlines. -/

/-- Double every quote character (the escaping the decoder undoes). -/
def escQ : Str → Str
  | [] => []
  | '"' :: rest => '"' :: '"' :: escQ rest
  | c :: rest => c :: escQ rest

/-- Render one field quoted, inner quotes doubled. -/
def quoteField (f : Str) : Str := '"' :: (escQ f ++ ['"'])

/-- Render one field, quoting exactly when it contains a quote or a comma. -/
def renderField (f : Str) : Str :=
  if ('"' : Char) ∈ f ∨ (',' : Char) ∈ f then quoteField f else f

/-- Render one row: fields joined by the delimiter. -/
def renderLine : List Str → Str
  | [] => []
  | [f] => renderField f
  | f :: fs => renderField f ++ ',' :: renderLine fs

/-- Join rendered lines by newlines. -/
def joinLines : List Str → Str
  | [] => []
  | [l] => l
  | l :: ls => l ++ '\n' :: joinLines ls

/-! ## Evidence Locator (`DocumentSidebar.jsx`) -/

/-- The regex word-character class `[a-zA-Z0-9_]`. -/
def isWordChar (c : Char) : Bool := c.isAlphanum || c = '_'

/-- The separator class `[\W_]` of the flexible pattern: any character that is
not an ASCII letter or digit. -/
def isJunk (c : Char) : Bool := !c.isAlphanum

/-- Accumulating scan behind `tokensOf`; `cur` holds the current word-character
run reversed. -/
def wordRunsAux (cur : Str) : Str → List Str
  | [] => if cur.isEmpty then [] else [cur.reverse]
  | c :: rest =>
    if isWordChar c then wordRunsAux (c :: cur) rest
    else if cur.isEmpty then wordRunsAux [] rest
    else cur.reverse :: wordRunsAux [] rest

/-- JS `term.split(/[^a-zA-Z0-9_]+/).filter(w => w.length > 0)`: the maximal runs
of word characters, in order. -/
def tokensOf (term : Str) : List Str := wordRunsAux [] term

/-- The `getFlexibleRegex` builder: `null` (here `none`) for terms shorter than 2
characters or without word tokens; otherwise the token list of the pattern
`w1[\W_]+w2[\W_]+…` (escaping is the identity on the tokens, which hold only
word characters, and compiling such a pattern never throws, so the
`try/catch` is dead). -/
def getFlexibleRegex (term : Str) : Option (List Str) :=
  if term.length < 2 then none
  else match tokensOf term with
    | [] => none
    | ws => some ws

/-- Case-fold a string (the `i` regex flag / mark.js default). -/
def lowerL (s : Str) : Str := s.map Char.toLower

/-- Strategy-1 span count: the number of start offsets at which the phrase
occurs verbatim, case-insensitively (mark.js `mark` with
`separateWordSearch: false`; the effect only ever compares this count
with zero). -/
def countSubCI (needle hay : Str) : Nat :=
  (lowerL hay).tails.countP (fun t => isPrefixL (lowerL needle) t)

/-- Does the flexible pattern `w1[\W_]+w2…` match at the start of the text,
case-insensitively?  Between consecutive words the pattern demands one or more
separator characters; as with regex backtracking, every separator-run length
`j + 1` is tried. -/
def matchSeq : List Str → Str → Bool
  | [], _ => true
  | [w], t => isPrefixL (lowerL w) (lowerL t)
  | w :: ws, t =>
    isPrefixL (lowerL w) (lowerL t) &&
      (let rest := t.drop w.length
       (List.range rest.length).any (fun j =>
         (rest.take (j + 1)).all isJunk && matchSeq ws (rest.drop (j + 1))))

/-- Strategy-2 span count: the number of start offsets at which the flexible
pattern matches. -/
def countFlex (ws : List Str) (doc : Str) : Nat :=
  doc.tails.countP (matchSeq ws)

/-- Which strategy of the highlighting effect produced the reported spans. -/
inductive Tier
  | noMatch
  | tier1
  | tier2
  | tier3
deriving DecidableEq, Repr

/-- Strategy-2 span count as seen by the effect: zero when `getFlexibleRegex`
returns `null`. -/
def spans2 (p doc : Str) : Nat :=
  match getFlexibleRegex p with
  | none => 0
  | some ws => countFlex ws doc

/-- The highlighting effect of `DocumentSidebar` (the chain of `done`
callbacks): exact match first, then the flexible pattern, then the loose
fallback.  `s3` abstracts `getPreviewRegex`, whose definition is not part of
the observed source: `s3 p doc = none` models a `null` fallback regex (no
tier-3 marking), `some c` a fallback regex that marks `c` spans.  An empty
phrase is the falsy `highlight` guard of the effect: nothing is marked. -/
def locate (s3 : Str → Str → Option Nat) (p doc : Str) : Tier × Nat :=
  if p = [] then (Tier.noMatch, 0)
  else
    let c1 := countSubCI p doc
    if 0 < c1 then (Tier.tier1, c1)
    else
      match getFlexibleRegex p with
      | none => (Tier.noMatch, 0)
      | some ws =>
        let c2 := countFlex ws doc
        if 0 < c2 then (Tier.tier2, c2)
        else
          match s3 p doc with
          | none => (Tier.noMatch, 0)
          | some c3 => (Tier.tier3, c3)

/-- Tier 3 (`getPreviewRegex`) is invoked exactly when the phrase is
non-empty, strategy 1 found nothing, and the flexible regex exists but found
nothing. -/
def tier3Tried (p doc : Str) : Bool :=
  !p.isEmpty && countSubCI p doc = 0 &&
    (match getFlexibleRegex p with
     | none => false
     | some ws => countFlex ws doc = 0)

/-! ## Progress-stage fold (`ProgressVisualizer` logs effect, App.jsx) -/

/-- Per-stage status. -/
inductive StageStatus
  | waiting
  | active
  | completed
deriving DecidableEq, Repr

/-- The order `waiting < active < completed`. -/
def StageStatus.toNat : StageStatus → Nat
  | .waiting => 0
  | .active => 1
  | .completed => 2

/-- The three visualized stages. -/
inductive Stage
  | converting
  | analyzing
  | processing
deriving DecidableEq, Repr

/-- The activation marker substrings of each stage. -/
def actMark : Stage → Str → Bool
  | .converting, l => containsSub ("Converting documents".data) l
  | .analyzing, l => containsSub ("Analyzing content".data) l
  | .processing, l =>
      containsSub ("Calling LLM".data) l ||
      containsSub ("Starting iterative agent".data) l

/-- The completion marker substrings of each stage. -/
def compMark : Stage → Str → Bool
  | .converting, l => containsSub ("Converted".data) l
  | .analyzing, l =>
      containsSub ("Content fits".data) l ||
      containsSub ("Content too large".data) l
  | .processing, l =>
      containsSub ("process completed".data) l ||
      containsSub ("Response saved".data) l

/-- The per-log-line status update of the `logs` effect: the activation `if`
runs first, the completion `if` second. -/
def updStage (st : Stage) (s : StageStatus) (l : Str) : StageStatus :=
  let s1 := if actMark st l then StageStatus.active else s
  if compMark st l then StageStatus.completed else s1

/-- The status the effect computes for a stage after the given log lines: the
effect rebuilds from `waiting` and folds every line in order. -/
def stageStatus (st : Stage) (logs : List Str) : StageStatus :=
  logs.foldl (updStage st) StageStatus.waiting

/-! ## Iteration Store (`handleRun` iteration_complete branch, App.jsx) -/

/-- One recorded iteration snapshot. -/
structure Snap where
  iteration : Nat
  content : Str
deriving DecidableEq, Repr

/-- Stable insertion into a list sorted by `iteration` (equal keys keep the
existing element first). -/
def insertSnap (x : Snap) : List Snap → List Snap
  | [] => [x]
  | y :: ys => if x.iteration ≤ y.iteration then x :: y :: ys else y :: insertSnap x ys

/-- Stable sort by `iteration` — extensionally the JS stable
`sort((a, b) => a.iteration - b.iteration)`. -/
def sortSnaps : List Snap → List Snap
  | [] => []
  | x :: xs => insertSnap x (sortSnaps xs)

/-- The `iteration_complete` branch: append the new snapshot and re-sort. -/
def recordSnap (prev : List Snap) (e : Snap) : List Snap :=
  sortSnaps (prev ++ [e])

/-! ## Iteration selection and row pairing (App.jsx) -/

/-- A source/target dataset pair (the `data` / `finalData` state). -/
structure DataPair where
  source : Dataset
  target : Dataset
deriving DecidableEq, Repr

/-- The `handleIterationSelect` handler: `none` restores the terminal result (when one
exists); a concrete number looks the snapshot up with `find`, decodes its raw
content, and pairs it with the terminal source half; otherwise the displayed
data is left unchanged. -/
def handleIterationSelect (store : List Snap) (finalData : Option DataPair)
    (cur : Option DataPair) (k : Option Nat) : Option DataPair :=
  match k with
  | none =>
    match finalData with
    | some fd => some fd
    | none => cur
  | some i =>
    match store.find? (fun r => r.iteration == i), finalData with
    | some r, some fd => some ⟨fd.source, parseCSV r.content⟩
    | _, _ => cur

/-- The row pairing of the table-building effect: source row `idx` is paired
with target row `idx` (`data.target.data[idx] || {}`); a missing target row
contributes only empty cells. -/
def buildRows (d : DataPair) : List (List Str × List Str) :=
  d.source.data.mapIdx (fun idx row =>
    (row, d.target.data.getD idx (List.replicate d.target.columns.length [])))

/-! ## Stream de-framer (`handleRun` read loop, App.jsx) -/

/-- JS `buffer.split('\n\n')`: leftmost non-overlapping split on the two-newline
event-record terminator. -/
def splitDD : Str → List Str
  | '\n' :: '\n' :: rest => [] :: splitDD rest
  | c :: rest => consHead c (splitDD rest)
  | [] => [[]]

/-- Join segments back with the two-newline record terminator (the inverse
used to reason about `splitDD`). -/
def joinDD : List Str → Str
  | [] => []
  | [s] => s
  | s :: rest => s ++ '\n' :: '\n' :: joinDD rest

/-- One transport step of the read loop: append the decoded chunk to the
carried buffer, split on record terminators, emit every complete record and
carry the trailing remainder (`buffer = lines.pop()`). -/
def feedChunk (st : List Str × Str) (chunk : Str) : List Str × Str :=
  let parts := splitDD (st.2 ++ chunk)
  (st.1 ++ parts.dropLast, parts.getLastD [])

/-- All complete records emitted after feeding the chunks in order; the final
unterminated remainder is never interpreted, as in the source. -/
def deframe (chunks : List Str) : List Str :=
  (chunks.foldl feedChunk ([], [])).1

/-- The `line.startsWith('data: ')` filter with the `line.slice(6)` payload
extraction; `JSON.parse` is a function of the payload text, so equal payload
sequences parse to equal event sequences. -/
def payloads (chunks : List Str) : List Str :=
  (deframe chunks).filterMap (fun l =>
    if isPrefixL ("data: ".data) l then some (l.drop 6) else none)

/-! ## Reference Resolver (`Target Source` cellClick and `handleViewDocument`,
App.jsx) -/

/-- First-colon split of a raw reference value (`value.indexOf(':')`):
identifier before the colon, context after, both trimmed; without a colon the
whole raw value is the identifier and the context is empty. -/
def resolveRef (v : Str) : Str × Str :=
  match v.findIdx? (fun c => c == ':') with
  | some i => (trimL (v.take i), trimL (v.drop (i + 1)))
  | none => (v, [])

/-- One attempt of the regex `/\.[a-zA-Z0-9]{2,4}$/` at a given suffix: a dot
followed by two to four alphanumeric characters reaching the end. -/
def extAt : Str → Bool
  | '.' :: rest => 2 ≤ rest.length && rest.length ≤ 4 && rest.all Char.isAlphanum
  | _ => false

/-- JS `filename.match(/\.[a-zA-Z0-9]{2,4}$/)` succeeds: some suffix of the name
is a dot followed by two to four alphanumerics ending the string. -/
def hasExtMatch (f : Str) : Bool := f.tails.any extAt

/-- The filename shape check shared by the cell click handler and
`handleViewDocument`: invalid exactly when the regex fails and the name is
longer than 20 characters. -/
def validShape (f : Str) : Bool := hasExtMatch f || f.length ≤ 20

/-- The `handleViewDocument` handler: re-check the identifier shape, then fetch the
document with the given filename and highlight context; `none` models the
alert path where no fetch happens. -/
def viewDocumentFetch (filename context : Str) : Option (Str × Str) :=
  if validShape filename then some (filename, context) else none

/-- The `Target Source` cell click: no-op on an empty value; otherwise resolve
the reference and, when the identifier passes the shape check, hand off to
`handleViewDocument`; `none` models the malformed-value alert with no fetch. -/
def targetSourceClick (value : Str) : Option (Str × Str) :=
  if value = [] then none
  else
    let r := resolveRef value
    if validShape r.1 then viewDocumentFetch r.1 r.2 else none

/-! # Theorems -/

/-! ## Evidence Locator -/

lemma getFlexibleRegex_short (p : Str) (h : p.length < 2) : getFlexibleRegex p = none := by
  simp [getFlexibleRegex, h]

lemma locate_c1 (s3 : Str → Str → Option Nat) (p doc : Str) (hp : p ≠ [])
    (h1 : 0 < countSubCI p doc) : locate s3 p doc = (Tier.tier1, countSubCI p doc) := by
  simp [locate, hp, h1]

lemma locate_c2 (s3 : Str → Str → Option Nat) (p doc : Str) (ws : List Str) (hp : p ≠ [])
    (h1 : countSubCI p doc = 0) (hreg : getFlexibleRegex p = some ws)
    (h2 : 0 < countFlex ws doc) : locate s3 p doc = (Tier.tier2, countFlex ws doc) := by
  simp [locate, hp, h1, hreg, h2]

lemma tier3Tried_inv (p doc : Str) (h : tier3Tried p doc = true) :
    countSubCI p doc = 0 ∧ spans2 p doc = 0 := by
  rcases hreg : getFlexibleRegex p with _ | ws
  · simp [tier3Tried, hreg] at h
  · simp [tier3Tried, hreg] at h
    exact ⟨h.1.2, by simp [spans2, hreg, h.2]⟩

lemma locate_t3_cases (s3 : Str → Str → Option Nat) (p doc : Str)
    (h : (locate s3 p doc).1 = Tier.tier3) :
    countSubCI p doc = 0 ∧ spans2 p doc = 0 := by
  by_cases hp : p = []
  · simp [locate, hp] at h
  · by_cases h1 : 0 < countSubCI p doc
    · simp [locate, hp, h1] at h
    · have h1' : countSubCI p doc = 0 := Nat.eq_zero_of_not_pos h1
      rcases hreg : getFlexibleRegex p with _ | ws
      · simp [locate, hp, h1', hreg] at h
      · by_cases h2 : 0 < countFlex ws doc
        · simp [locate, hp, h1', hreg, h2] at h
        · have h2' : countFlex ws doc = 0 := Nat.eq_zero_of_not_pos h2
          exact ⟨h1', by simp [spans2, hreg, h2']⟩

/-- C3: for every phrase of length at least 2 and every document, the three
strategies are applied strictly in order and the effect stops at the first
strategy yielding at least one span; the loose tier-3 fallback is invoked only
when strategies 1 and 2 both yielded zero spans, and a tier-3 result occurs
only in that situation (for every choice of the abstracted `getPreviewRegex`
fallback `s3`). -/
theorem evidenceLocatorTierOrder (s3 : Str → Str → Option Nat) (p doc : Str)
    (h : 2 ≤ p.length) :
    (0 < countSubCI p doc → locate s3 p doc = (Tier.tier1, countSubCI p doc)) ∧
    (countSubCI p doc = 0 → 0 < spans2 p doc →
      locate s3 p doc = (Tier.tier2, spans2 p doc)) ∧
    (tier3Tried p doc = true → countSubCI p doc = 0 ∧ spans2 p doc = 0) ∧
    ((locate s3 p doc).1 = Tier.tier3 → countSubCI p doc = 0 ∧ spans2 p doc = 0) := by
  have hp : p ≠ [] := by
    intro e
    subst e
    simp at h
  refine ⟨fun h1 => locate_c1 s3 p doc hp h1, fun h1 h2 => ?_,
    fun h3 => tier3Tried_inv p doc h3, fun h4 => locate_t3_cases s3 p doc h4⟩
  rcases hreg : getFlexibleRegex p with _ | ws
  · simp [spans2, hreg] at h2
  · have h2' : 0 < countFlex ws doc := by simpa [spans2, hreg] using h2
    rw [locate_c2 s3 p doc ws hp h1 hreg h2']
    simp [spans2, hreg]

/-- Witness for C3 at the phrase "Order Master" and the document
"See Order|Master table". -/
theorem evidenceLocatorTierOrder_witness :
    locate (fun _ _ => Option.none) ("Order Master".data) ("See Order|Master table".data) =
      (Tier.tier2, spans2 ("Order Master".data) ("See Order|Master table".data)) := by
  exact (evidenceLocatorTierOrder (fun _ _ => Option.none) ("Order Master".data)
    ("See Order|Master table".data) (by decide)).2.1 (by decide) (by decide)

/-- C8: `locate("Order Master", "See Order|Master table")` succeeds via
strategy 2 (word-sequence) for every tier-3 fallback, although strategy 1
(exact substring) finds nothing; the word split yields the tokens
`Order`, `Master`. -/
theorem evidenceLocatorOrderMaster (s3 : Str → Str → Option Nat) :
    countSubCI ("Order Master".data) ("See Order|Master table".data) = 0 ∧
    tokensOf ("Order Master".data) = [("Order".data), ("Master".data)] ∧
    locate s3 ("Order Master".data) ("See Order|Master table".data) = (Tier.tier2, 1) := by
  refine ⟨by decide, by decide, ?_⟩
  rw [locate_c2 s3 ("Order Master".data) ("See Order|Master table".data)
    [("Order".data), ("Master".data)] (by decide) (by decide) (by decide) (by decide)]
  decide

/-- C2 is false as stated: for the one-character phrase "x" the exact-match
strategy still runs and returns a span. -/
theorem evidenceLocatorShortCounterexample :
    (locate (fun _ _ => Option.none) ("x".data) ("x".data)).2 ≠ 0 ∧
    locate (fun _ _ => Option.none) ("x".data) ("x".data) = (Tier.tier1, 1) := by
  decide

/-- C2 (amended): a phrase of fewer than 2 characters is excluded only from
strategies 2 and 3 (`getFlexibleRegex` yields nothing); strategy-1 exact
matching is still attempted whenever the phrase is non-empty, so the effect
returns exactly the exact-substring spans, and zero spans only when the phrase
is empty or has no exact occurrence. -/
theorem evidenceLocatorShortPhrase (s3 : Str → Str → Option Nat) (p doc : Str)
    (h : p.length < 2) :
    locate s3 p doc =
      if p = [] ∨ countSubCI p doc = 0 then (Tier.noMatch, 0)
      else (Tier.tier1, countSubCI p doc) := by
  by_cases hp : p = []
  · simp [locate, hp]
  · have hreg : getFlexibleRegex p = none := getFlexibleRegex_short p h
    by_cases hc : countSubCI p doc = 0
    · simp [locate, hp, hc, hreg]
    · have hpos : 0 < countSubCI p doc := Nat.pos_of_ne_zero hc
      simp [locate, hp, hc, hpos]

/-- Witness for the amended C2 at phrase "x" and document "yx". -/
theorem evidenceLocatorShortPhrase_witness :
    locate (fun _ _ => Option.none) ("x".data) ("yx".data) = (Tier.tier1, 1) := by
  rw [evidenceLocatorShortPhrase (fun _ _ => Option.none) ("x".data) ("yx".data) (by decide)]
  decide

/-! ## Progress-stage fold -/

lemma stageStatus_append (st : Stage) (logs : List Str) (e : Str) :
    stageStatus st (logs ++ [e]) = updStage st (stageStatus st logs) e := by
  simp [stageStatus, List.foldl_append]

/-- C5 is false as stated: after a line containing the completion marker
`Converted` has set the ingestion stage to `completed`, a later line
containing the activation marker `Converting documents` folds it back to
`active`. -/
theorem stageRegressionCounterexample :
    stageStatus Stage.converting [("Converted 12 documents".data)] = StageStatus.completed ∧
    stageStatus Stage.converting
      [("Converted 12 documents".data), ("Converting documents".data)] =
      StageStatus.active := by
  decide

/-- C5 (amended): a stage's status is non-decreasing across
`waiting < active < completed` as progress events arrive, provided that once
the stage is completed no arriving line carries the stage's activation marker
without its completion marker; a line that does carries the stage back to
`active`, which is the only possible regression. -/
theorem stageMonotoneAmended (st : Stage) (logs : List Str) (e : Str)
    (h : stageStatus st logs = StageStatus.completed →
      ¬(actMark st e = true ∧ compMark st e = false)) :
    (stageStatus st logs).toNat ≤ (stageStatus st (logs ++ [e])).toNat := by
  rw [stageStatus_append]
  cases hsv : stageStatus st logs with
  | waiting =>
    cases hA : actMark st e <;> cases hC : compMark st e <;>
      simp [updStage, hA, hC, StageStatus.toNat]
  | active =>
    cases hA : actMark st e <;> cases hC : compMark st e <;>
      simp [updStage, hA, hC, StageStatus.toNat]
  | completed =>
    cases hA : actMark st e with
    | false =>
      cases hC : compMark st e <;> simp [updStage, hA, hC, StageStatus.toNat]
    | true =>
      cases hC : compMark st e with
      | false => exact absurd ⟨hA, hC⟩ (h hsv)
      | true => simp [updStage, hA, hC, StageStatus.toNat]

/-- Witness for the amended C5: a completion marker arriving after the
reasoning stage activated keeps the status moving forward. -/
theorem stageMonotoneAmended_witness :
    (stageStatus Stage.processing [("Calling LLM".data)]).toNat ≤
      (stageStatus Stage.processing
        ([("Calling LLM".data)] ++ [("Migration process completed".data)])).toNat :=
  stageMonotoneAmended Stage.processing [("Calling LLM".data)]
    ("Migration process completed".data) (by decide)

/-! ## Iteration Store -/

lemma length_insertSnap (x : Snap) (l : List Snap) :
    (insertSnap x l).length = l.length + 1 := by
  induction l with
  | nil => rfl
  | cons y ys ih =>
    by_cases h : x.iteration ≤ y.iteration
    · simp [insertSnap, h]
    · simp [insertSnap, h, ih]

lemma length_sortSnaps (l : List Snap) : (sortSnaps l).length = l.length := by
  induction l with
  | nil => rfl
  | cons x xs ih => simp [sortSnaps, length_insertSnap, ih]

lemma mem_insertSnap (a x : Snap) (l : List Snap) :
    a ∈ insertSnap x l ↔ a = x ∨ a ∈ l := by
  induction l with
  | nil => simp [insertSnap]
  | cons y ys ih =>
    by_cases h : x.iteration ≤ y.iteration
    · simp [insertSnap, h]
    · simp [insertSnap, h, ih]
      tauto

lemma sorted_insertSnap (x : Snap) (l : List Snap)
    (h : List.Pairwise (fun a b => a.iteration ≤ b.iteration) l) :
    List.Pairwise (fun a b => a.iteration ≤ b.iteration) (insertSnap x l) := by
  induction l with
  | nil => simp [insertSnap]
  | cons y ys ih =>
    rcases List.pairwise_cons.mp h with ⟨hy, hys⟩
    by_cases hle : x.iteration ≤ y.iteration
    · simp only [insertSnap, if_pos hle]
      refine List.pairwise_cons.mpr ⟨?_, h⟩
      intro a ha
      rcases List.mem_cons.mp ha with rfl | ha'
      · exact hle
      · exact le_trans hle (hy a ha')
    · simp only [insertSnap, if_neg hle]
      refine List.pairwise_cons.mpr ⟨?_, ih hys⟩
      intro a ha
      rcases (mem_insertSnap a x ys).mp ha with rfl | ha'
      · exact Nat.le_of_not_le hle
      · exact hy a ha'

lemma sorted_sortSnaps (l : List Snap) :
    List.Pairwise (fun a b => a.iteration ≤ b.iteration) (sortSnaps l) := by
  induction l with
  | nil => simp [sortSnaps]
  | cons x xs ih => exact sorted_insertSnap x (sortSnaps xs) ih

lemma foldl_recordSnap_length (events init : List Snap) :
    (events.foldl recordSnap init).length = init.length + events.length := by
  induction events generalizing init with
  | nil => rfl
  | cons e es ih =>
    have hstep : (recordSnap init e).length = init.length + 1 := by
      simp [recordSnap, length_sortSnaps]
    simp [List.foldl_cons, ih, hstep]
    omega

lemma foldl_recordSnap_sorted (events init : List Snap)
    (h : List.Pairwise (fun a b => a.iteration ≤ b.iteration) init) :
    List.Pairwise (fun a b => a.iteration ≤ b.iteration) (events.foldl recordSnap init) := by
  induction events generalizing init with
  | nil => exact h
  | cons e es ih => exact ih (recordSnap init e) (sorted_sortSnaps _)

/-- C4 is false as stated: recording two snapshots with the same iteration
number keeps both — the store grows to two entries rather than keeping at
most one — and the lookup used by iteration selection returns the
first-received snapshot, not the last write. -/
theorem iterationStoreCounterexample :
    (recordSnap (recordSnap [] ⟨1, ("a".data)⟩) ⟨1, ("b".data)⟩).length = 2 ∧
    recordSnap (recordSnap [] ⟨1, ("a".data)⟩) ⟨1, ("b".data)⟩ =
      [⟨1, ("a".data)⟩, ⟨1, ("b".data)⟩] ∧
    (recordSnap (recordSnap [] ⟨1, ("a".data)⟩) ⟨1, ("b".data)⟩).find?
      (fun r => r.iteration == 1) = some ⟨1, ("a".data)⟩ := by
  decide

/-- C4 (amended): the store appends every `iteration_complete` snapshot —
duplicates for the same iteration number are all retained rather than
overwritten (on duplicates the first-received snapshot, not the last write,
is the one selection's `find` returns) — and the stored snapshots are always
materialized ordered ascending (non-strictly) by iteration number. -/
theorem iterationStoreAmended (events : List Snap) :
    (events.foldl recordSnap []).length = events.length ∧
    List.Pairwise (fun a b => a.iteration ≤ b.iteration) (events.foldl recordSnap []) := by
  constructor
  · simpa using foldl_recordSnap_length events []
  · exact foldl_recordSnap_sorted events [] (by simp)

/-! ## Iteration selection and row pairing -/

/-- C7: selecting a recorded iteration `k` while a terminal result exists sets
the displayed pair to the terminal source half — unchanged — together with the
Tabular-Decoder decoding of iteration `k`'s raw content, and the displayed
rows pair source row `i` positionally with decoded target row `i` (a missing
target row contributing empty cells). -/
theorem iterationSelectPairing (store : List Snap) (fd : DataPair) (cur : Option DataPair)
    (k : Nat) (r : Snap) (hfind : store.find? (fun s => s.iteration == k) = some r) :
    handleIterationSelect store (some fd) cur (some k) =
      some ⟨fd.source, parseCSV r.content⟩ ∧
    (buildRows ⟨fd.source, parseCSV r.content⟩).length = fd.source.data.length ∧
    ∀ i, i < fd.source.data.length →
      (buildRows ⟨fd.source, parseCSV r.content⟩).getD i ([], []) =
        (fd.source.data.getD i [],
         (parseCSV r.content).data.getD i
           (List.replicate (parseCSV r.content).columns.length [])) := by
  refine ⟨by simp [handleIterationSelect, hfind], by simp [buildRows], ?_⟩
  intro i hi
  have hlen : i < (buildRows ⟨fd.source, parseCSV r.content⟩).length := by
    simpa [buildRows] using hi
  rw [List.getD_eq_getElem _ _ hlen]
  simp only [buildRows, List.getElem_mapIdx]
  rw [List.getD_eq_getElem _ _ hi]

/-- Witness for C7: iterations 1..3 recorded, iteration 2 selected. -/
theorem iterationSelectPairing_witness :
    handleIterationSelect
        [⟨1, ("t\nx1".data)⟩, ⟨2, ("t\nx2".data)⟩, ⟨3, ("t\nx3".data)⟩]
        (some ⟨⟨[("s".data)], [[("r1".data)]]⟩, ⟨[("t".data)], [[("f1".data)]]⟩⟩)
        Option.none (some 2) =
      some ⟨⟨[("s".data)], [[("r1".data)]]⟩, parseCSV ("t\nx2".data)⟩ ∧
    (buildRows ⟨⟨[("s".data)], [[("r1".data)]]⟩, parseCSV ("t\nx2".data)⟩).getD 0 ([], []) =
      (((⟨⟨[("s".data)], [[("r1".data)]]⟩, ⟨[("t".data)], [[("f1".data)]]⟩⟩ :
          DataPair).source.data).getD 0 [],
       (parseCSV ("t\nx2".data)).data.getD 0
         (List.replicate (parseCSV ("t\nx2".data)).columns.length [])) :=
  ⟨(iterationSelectPairing
      [⟨1, ("t\nx1".data)⟩, ⟨2, ("t\nx2".data)⟩, ⟨3, ("t\nx3".data)⟩]
      ⟨⟨[("s".data)], [[("r1".data)]]⟩, ⟨[("t".data)], [[("f1".data)]]⟩⟩
      Option.none 2 ⟨2, ("t\nx2".data)⟩ (by decide)).1,
   (iterationSelectPairing
      [⟨1, ("t\nx1".data)⟩, ⟨2, ("t\nx2".data)⟩, ⟨3, ("t\nx3".data)⟩]
      ⟨⟨[("s".data)], [[("r1".data)]]⟩, ⟨[("t".data)], [[("f1".data)]]⟩⟩
      Option.none 2 ⟨2, ("t\nx2".data)⟩ (by decide)).2.2 0 (by decide)⟩

/-! ## Leading-colon references -/

/-- C10: a non-empty raw reference beginning with a colon resolves to the empty
identifier with the trimmed remainder as context; the empty identifier passes
the shape check (length 0 is not above 20), so the click handler attempts a
document fetch with an empty filename instead of flagging the value as
malformed. -/
theorem leadingColonFetch (rest : Str) :
    resolveRef (':' :: rest) = ([], trimL rest) ∧
    validShape [] = true ∧
    targetSourceClick (':' :: rest) = some ([], trimL rest) := by
  have hres : resolveRef (':' :: rest) = ([], trimL rest) := by
    simp [resolveRef, List.findIdx?_cons, trimL]
  have hv : validShape [] = true := by decide
  refine ⟨hres, hv, ?_⟩
  simp [targetSourceClick, hres, viewDocumentFetch, hv]

/-! ## Reference Resolver -/

lemma findIdx?_colon_aux (b : Str) : ∀ (a : Str) (i : Nat), (':' : Char) ∉ a →
    List.findIdx? (fun c => c == ':') (a ++ ':' :: b) i = some (i + a.length) := by
  intro a
  induction a with
  | nil => intro i _; simp [List.findIdx?_cons]
  | cons c t ih =>
    intro i hni
    have hcne : c ≠ ':' := by
      intro e
      exact hni (by simp [e])
    have hc : (c == ':') = false := by simp [hcne]
    rw [List.cons_append, List.findIdx?_cons, hc, if_neg (by simp)]
    rw [ih (i + 1) (fun hm => hni (List.mem_cons_of_mem _ hm))]
    simp only [List.length_cons]
    exact congrArg some (by omega)

lemma findIdx?_colon_none (v : Str) (h : (':' : Char) ∉ v) :
    ∀ i, List.findIdx? (fun c => c == ':') v i = none := by
  induction v with
  | nil => intro i; rfl
  | cons c t ih =>
    intro i
    have hcne : c ≠ ':' := by
      intro e
      exact h (by simp [e])
    have hc : (c == ':') = false := by simp [hcne]
    rw [List.findIdx?_cons, hc, if_neg (by simp)]
    exact ih (fun hm => h (List.mem_cons_of_mem _ hm)) (i + 1)

lemma resolveRef_no_colon (v : Str) (h : (':' : Char) ∉ v) : resolveRef v = (v, []) := by
  simp [resolveRef, findIdx?_colon_none v h 0]

lemma resolveRef_split (a b : Str) (ha : (':' : Char) ∉ a) :
    resolveRef (a ++ ':' :: b) = (trimL a, trimL b) := by
  have hidx := findIdx?_colon_aux b a 0 ha
  simp only [Nat.zero_add] at hidx
  simp only [resolveRef, hidx]
  rw [List.take_left, List.drop_append 1]
  rfl

lemma extAt_iff (t : Str) : extAt t = true ↔
    ∃ ext : Str, t = '.' :: ext ∧ ext.all Char.isAlphanum = true ∧
      2 ≤ ext.length ∧ ext.length ≤ 4 := by
  cases t with
  | nil => simp [extAt]
  | cons c rest =>
    by_cases hc : c = '.'
    · subst hc
      simp [extAt, and_assoc]
      tauto
    · simp [extAt, hc]

lemma hasExtMatch_iff (f : Str) : hasExtMatch f = true ↔
    ∃ pre ext : Str, f = pre ++ '.' :: ext ∧ ext.all Char.isAlphanum = true ∧
      2 ≤ ext.length ∧ ext.length ≤ 4 := by
  unfold hasExtMatch
  rw [List.any_eq_true]
  constructor
  · rintro ⟨t, ht, hext⟩
    rcases (extAt_iff t).mp hext with ⟨ext, rfl, hall, h2, h4⟩
    rcases (List.mem_tails _ _).mp ht with ⟨pre, hpre⟩
    exact ⟨pre, ext, hpre.symm, hall, h2, h4⟩
  · rintro ⟨pre, ext, rfl, hall, h2, h4⟩
    exact ⟨'.' :: ext, (List.mem_tails _ _).mpr ⟨pre, rfl⟩,
      (extAt_iff _).mpr ⟨ext, rfl, hall, h2, h4⟩⟩

/-- C9: the Reference Resolver splits at the first colon — trimmed text before
as identifier, trimmed text after as context, and without a colon the whole
raw string with empty context — and never fails; the shape check accepts an
identifier iff some final dot is followed by 2–4 alphanumerics ending the name
(the extension is alphanumeric, so the matched dot is necessarily the last)
or the identifier has at most 20 characters.  In particular
`resolve("ITEM.md: IPROD field")` yields `"ITEM.md"` / `"IPROD field"`, and
the spec's 61-character extensionless example fails the shape check. -/
theorem referenceResolver (v a b f : Str) :
    ((':' : Char) ∉ v → resolveRef v = (v, [])) ∧
    ((':' : Char) ∉ a → resolveRef (a ++ ':' :: b) = (trimL a, trimL b)) ∧
    (validShape f = true ↔
      ((∃ pre ext : Str, f = pre ++ '.' :: ext ∧ ext.all Char.isAlphanum = true ∧
        2 ≤ ext.length ∧ ext.length ≤ 4) ∨ f.length ≤ 20)) ∧
    resolveRef ("ITEM.md: IPROD field".data) = (("ITEM.md".data), ("IPROD field".data)) ∧
    (("some-long-description-without-colon-or-extension-thirty-chars".data).length = 61 ∧
      validShape ("some-long-description-without-colon-or-extension-thirty-chars".data)
        = false) := by
  refine ⟨resolveRef_no_colon v, fun ha => resolveRef_split a b ha, ?_, by decide, by decide⟩
  unfold validShape
  rw [Bool.or_eq_true, hasExtMatch_iff]
  simp

/-- Witness for C9: the resolver on the spec's example and on a colon-free
value. -/
theorem referenceResolver_witness :
    resolveRef ("ITEM.md: IPROD field".data) = (("ITEM.md".data), ("IPROD field".data)) ∧
    resolveRef ("nocolon".data) = (("nocolon".data), []) :=
  ⟨(referenceResolver [] [] [] []).2.2.2.1,
   (referenceResolver ("nocolon".data) [] [] []).1 (by decide)⟩

/-! ## Tabular Decoder -/

lemma parseLineAux_quote_f (cur rest : Str) :
    parseLineAux cur false ('"' :: rest) = parseLineAux (cur ++ ['"']) true rest := by
  simp [parseLineAux]

lemma parseLineAux_quote_t (cur rest : Str) :
    parseLineAux cur true ('"' :: rest) = parseLineAux (cur ++ ['"']) false rest := by
  simp [parseLineAux]

lemma parseLineAux_comma (cur rest : Str) :
    parseLineAux cur false (',' :: rest) = unquoteField cur :: parseLineAux [] false rest := by
  simp [parseLineAux]

lemma parseLineAux_other_t (cur : Str) (c : Char) (rest : Str) (h1 : c ≠ '"') :
    parseLineAux cur true (c :: rest) = parseLineAux (cur ++ [c]) true rest := by
  simp [parseLineAux, h1]

lemma parseLineAux_other_f (cur : Str) (c : Char) (rest : Str) (h1 : c ≠ '"')
    (h2 : c ≠ ',') :
    parseLineAux cur false (c :: rest) = parseLineAux (cur ++ [c]) false rest := by
  simp [parseLineAux, h1, h2]

lemma parseLineAux_raw : ∀ (f cur rest : Str), ('"' : Char) ∉ f → (',' : Char) ∉ f →
    parseLineAux cur false (f ++ rest) = parseLineAux (cur ++ f) false rest := by
  intro f
  induction f with
  | nil => intro cur rest _ _; simp
  | cons c t ih =>
    intro cur rest hq hc
    have h1 : c ≠ '"' := fun e => hq (by simp [e])
    have h2 : c ≠ ',' := fun e => hc (by simp [e])
    have hq' : ('"' : Char) ∉ t := fun hm => hq (List.mem_cons_of_mem _ hm)
    have hc' : (',' : Char) ∉ t := fun hm => hc (List.mem_cons_of_mem _ hm)
    rw [List.cons_append, parseLineAux_other_f cur c _ h1 h2, ih (cur ++ [c]) rest hq' hc']
    simp

lemma parseLineAux_qrun : ∀ (f cur rest : Str),
    parseLineAux cur true (escQ f ++ rest) = parseLineAux (cur ++ escQ f) true rest := by
  intro f
  induction f with
  | nil => intro cur rest; simp [escQ]
  | cons c t ih =>
    intro cur rest
    by_cases hq : c = '"'
    · subst hq
      rw [show escQ ('"' :: t) = '"' :: '"' :: escQ t from rfl, List.cons_append,
        List.cons_append, parseLineAux_quote_t, parseLineAux_quote_f,
        ih (cur ++ ['"'] ++ ['"']) rest]
      simp
    · rw [show escQ (c :: t) = c :: escQ t from by simp [escQ, hq], List.cons_append,
        parseLineAux_other_t cur c _ hq, ih (cur ++ [c]) rest]
      simp

lemma parseLineAux_render (f rest : Str) :
    parseLineAux [] false (renderField f ++ rest) = parseLineAux (renderField f) false rest := by
  unfold renderField
  by_cases h : ('"' : Char) ∈ f ∨ (',' : Char) ∈ f
  · rw [if_pos h]
    show parseLineAux [] false (('"' :: (escQ f ++ ['"'])) ++ rest) = _
    rw [List.cons_append, parseLineAux_quote_f, List.nil_append, List.append_assoc,
      List.singleton_append, parseLineAux_qrun f (['"'] : Str) ('"' :: rest),
      parseLineAux_quote_t]
    simp [quoteField]
  · rw [if_neg h]
    push_neg at h
    simpa using parseLineAux_raw f [] rest h.1 h.2

lemma replaceDD_cons_ne (c : Char) (h : c ≠ '"') (t : Str) :
    replaceDD (c :: t) = c :: replaceDD t := by
  cases t with
  | nil => simp [replaceDD, h]
  | cons d t' =>
    by_cases hd : d = '"'
    · subst hd; simp [replaceDD, h]
    · simp [replaceDD, h]

lemma replaceDD_escQ : ∀ f : Str, replaceDD (escQ f) = f := by
  intro f
  induction f with
  | nil => rfl
  | cons c t ih =>
    by_cases hq : c = '"'
    · subst hq
      rw [show escQ ('"' :: t) = '"' :: '"' :: escQ t from rfl]
      rw [show replaceDD ('"' :: '"' :: escQ t) = '"' :: replaceDD (escQ t) from rfl, ih]
    · rw [show escQ (c :: t) = c :: escQ t from by simp [escQ, hq]]
      rw [replaceDD_cons_ne c hq (escQ t), ih]

lemma unquote_quoteField (f : Str) : unquoteField (quoteField f) = f := by
  show unquoteField ('"' :: (escQ f ++ ['"'])) = f
  simp [unquoteField, List.getLast?_concat, List.dropLast_concat, replaceDD_escQ]

lemma unquote_raw (f : Str) (h : ('"' : Char) ∉ f) : unquoteField f = f := by
  cases f with
  | nil => rfl
  | cons c t =>
    have hc : c ≠ '"' := fun e => h (by simp [e])
    simp [unquoteField, hc]

lemma unquote_renderField (f : Str) : unquoteField (renderField f) = f := by
  unfold renderField
  by_cases h : ('"' : Char) ∈ f ∨ (',' : Char) ∈ f
  · rw [if_pos h]; exact unquote_quoteField f
  · rw [if_neg h]
    push_neg at h
    exact unquote_raw f h.1

lemma parseLine_renderLine : ∀ fs : List Str, fs ≠ [] →
    parseLine (renderLine fs) = fs := by
  intro fs
  induction fs with
  | nil => intro h; exact absurd rfl h
  | cons f fs ih =>
    intro _
    cases fs with
    | nil =>
      show parseLine (renderField f) = [f]
      unfold parseLine
      have h0 := parseLineAux_render f []
      rw [List.append_nil] at h0
      rw [h0]
      simp [parseLineAux, unquote_renderField]
    | cons g gs =>
      show parseLine (renderField f ++ ',' :: renderLine (g :: gs)) = f :: g :: gs
      unfold parseLine
      rw [parseLineAux_render f (',' :: renderLine (g :: gs)),
        parseLineAux_comma (renderField f) (renderLine (g :: gs)), unquote_renderField f]
      rw [show parseLineAux [] false (renderLine (g :: gs)) = parseLine (renderLine (g :: gs))
        from rfl]
      rw [ih (by simp)]

lemma mapIdx_getD_eq (hs fs : List Str) (h : fs.length = hs.length) :
    hs.mapIdx (fun i _ => fs.getD i []) = fs := by
  apply List.ext_getElem
  · simp [h]
  · intro i h1 h2
    rw [List.getElem_mapIdx]
    exact List.getD_eq_getElem _ _ h2

lemma splitNl_no_nl : ∀ l : Str, ('\n' : Char) ∉ l → splitNl l = [l] := by
  intro l
  induction l with
  | nil => intro _; rfl
  | cons c t ih =>
    intro h
    have hc : c ≠ '\n' := fun e => h (by simp [e])
    simp [splitNl, hc, ih (fun hm => h (List.mem_cons_of_mem _ hm)), consHead]

lemma splitNl_append : ∀ (l t : Str), ('\n' : Char) ∉ l →
    splitNl (l ++ '\n' :: t) = l :: splitNl t := by
  intro l
  induction l with
  | nil => intro t _; simp [splitNl]
  | cons c r ih =>
    intro t h
    have hc : c ≠ '\n' := fun e => h (by simp [e])
    simp [splitNl, hc, ih t (fun hm => h (List.mem_cons_of_mem _ hm)), consHead]

lemma splitNl_joinLines : ∀ ls : List Str, ls ≠ [] → (∀ l ∈ ls, ('\n' : Char) ∉ l) →
    splitNl (joinLines ls) = ls := by
  intro ls
  induction ls with
  | nil => intro h _; exact absurd rfl h
  | cons l ls ih =>
    intro _ hall
    cases ls with
    | nil => exact splitNl_no_nl l (hall l (by simp))
    | cons m ms =>
      show splitNl (l ++ '\n' :: joinLines (m :: ms)) = l :: m :: ms
      rw [splitNl_append l _ (hall l (by simp))]
      rw [ih (by simp) (fun x hx => hall x (List.mem_cons_of_mem _ hx))]

lemma mem_escQ (c : Char) : ∀ f : Str, c ∈ escQ f → c = '"' ∨ c ∈ f := by
  intro f
  induction f with
  | nil => intro h; simp [escQ] at h
  | cons d t ih =>
    intro h
    by_cases hd : d = '"'
    · subst hd
      rw [show escQ ('"' :: t) = '"' :: '"' :: escQ t from rfl] at h
      rcases List.mem_cons.mp h with e | h'
      · exact Or.inl e
      · rcases List.mem_cons.mp h' with e | h''
        · exact Or.inl e
        · rcases ih h'' with e | hm
          · exact Or.inl e
          · exact Or.inr (List.mem_cons_of_mem _ hm)
    · rw [show escQ (d :: t) = d :: escQ t from by simp [escQ, hd]] at h
      rcases List.mem_cons.mp h with e | h'
      · exact Or.inr (e ▸ List.mem_cons_self _ _)
      · rcases ih h' with e | hm
        · exact Or.inl e
        · exact Or.inr (List.mem_cons_of_mem _ hm)

lemma no_nl_renderField (f : Str) (h : ('\n' : Char) ∉ f) :
    ('\n' : Char) ∉ renderField f := by
  unfold renderField
  by_cases hc : ('"' : Char) ∈ f ∨ (',' : Char) ∈ f
  · rw [if_pos hc]
    intro hm
    show False
    rcases List.mem_cons.mp hm with e | hm'
    · exact absurd e (by decide)
    · rcases List.mem_append.mp hm' with hm'' | hm''
      · rcases mem_escQ '\n' f hm'' with e | e
        · exact absurd e (by decide)
        · exact h e
      · simp at hm''
  · rw [if_neg hc]; exact h

lemma no_nl_renderLine : ∀ fs : List Str, (∀ f ∈ fs, ('\n' : Char) ∉ f) →
    ('\n' : Char) ∉ renderLine fs := by
  intro fs
  induction fs with
  | nil => intro _; simp [renderLine]
  | cons f fs ih =>
    intro hall
    cases fs with
    | nil => exact no_nl_renderField f (hall f (by simp))
    | cons g gs =>
      show ('\n' : Char) ∉ renderField f ++ ',' :: renderLine (g :: gs)
      intro hm
      rcases List.mem_append.mp hm with hm' | hm'
      · exact no_nl_renderField f (hall f (by simp)) hm'
      · rcases List.mem_cons.mp hm' with e | hm''
        · exact absurd e (by decide)
        · exact ih (fun x hx => hall x (List.mem_cons_of_mem _ hx)) hm''

lemma joinLines_ne (x : Str) (ls : List Str) (hx : x ≠ []) : joinLines (x :: ls) ≠ [] := by
  cases ls with
  | nil => exact hx
  | cons m ms =>
    show x ++ '\n' :: joinLines (m :: ms) ≠ []
    simp

/-- C1 is false as stated: the two-line input consisting of the header `A` and
a quoted field containing a newline is decoded as two one-field rows (the
torn halves of the quoted field), not as one row whose single field holds the
newline. -/
theorem parseCSVNewlineCounterexample :
    (parseCSV ("A\n\"x\ny\"".data)).data = [[['"', 'x']], [['y', '"']]] ∧
    (parseCSV ("A\n\"x\ny\"".data)).data.length ≠ 1 := by
  decide

/-- C1 (amended): the Tabular Decoder correctly parses rendered rows in which
fields may be quoted, quotes inside quoted fields are escaped by doubling and
the delimiter may appear inside quoted fields — but newlines may not: the
input is split at every newline before any quote processing (see the
counterexample), so correctness holds for newline-free fields.  For any
non-empty header and rows positionally as wide as the header, all with
newline-free fields and with no row rendering to a blank line, decoding the
rendering returns exactly the header and the rows. -/
theorem parseCSVQuotingAmended (hs : List Str) (rows : List (List Str))
    (hhs : hs ≠ [])
    (hlen : ∀ r ∈ rows, r.length = hs.length)
    (hnl : ∀ f ∈ hs, ('\n' : Char) ∉ f)
    (hnlr : ∀ r ∈ rows, ∀ f ∈ r, ('\n' : Char) ∉ f)
    (hblank : ∀ l ∈ (hs :: rows).map renderLine, trimL l ≠ []) :
    parseCSV (joinLines ((hs :: rows).map renderLine)) = ⟨hs, rows⟩ := by
  have hmapnl : ∀ l ∈ (hs :: rows).map renderLine, ('\n' : Char) ∉ l := by
    intro l hl
    rcases List.mem_map.mp hl with ⟨fs, hfs, rfl⟩
    rcases List.mem_cons.mp hfs with rfl | hfs'
    · exact no_nl_renderLine fs hnl
    · exact no_nl_renderLine fs (hnlr fs hfs')
  have hsplit : splitNl (joinLines ((hs :: rows).map renderLine)) =
      (hs :: rows).map renderLine :=
    splitNl_joinLines _ (by simp) hmapnl
  have hfilter : ((hs :: rows).map renderLine).filter (fun l => !(trimL l).isEmpty) =
      (hs :: rows).map renderLine := by
    rw [List.filter_eq_self]
    intro l hl
    simpa [List.isEmpty_iff] using hblank l hl
  have hx : renderLine hs ≠ [] := by
    intro e
    exact hblank (renderLine hs) (by simp) (by rw [e]; rfl)
  have hne : joinLines ((hs :: rows).map renderLine) ≠ [] := by
    rw [List.map_cons]
    exact joinLines_ne _ _ hx
  unfold parseCSV
  rw [if_neg hne, hsplit, hfilter, List.map_cons]
  dsimp only
  rw [parseLine_renderLine hs hhs, List.map_map]
  have hrowmap : rows.map ((fun line =>
      hs.mapIdx fun i _ => (parseLine line).getD i []) ∘ renderLine) = rows := by
    have h1 : ∀ r ∈ rows, ((fun line =>
        hs.mapIdx fun i _ => (parseLine line).getD i []) ∘ renderLine) r = id r := by
      intro r hr
      have hrne : r ≠ [] := by
        intro e
        have hl := hlen r hr
        rw [e] at hl
        exact hhs (List.length_eq_zero.mp hl.symm)
      show hs.mapIdx (fun i _ => (parseLine (renderLine r)).getD i []) = r
      rw [parseLine_renderLine r hrne]
      exact mapIdx_getD_eq hs r (hlen r hr)
    rw [List.map_congr_left h1, List.map_id]
  rw [hrowmap]

/-- Witness for the amended C1: header `h`, one row with the single field
`a,b` (rendered quoted because of the embedded delimiter). -/
theorem parseCSVQuotingAmended_witness :
    parseCSV (joinLines (([("h".data)] :: [[("a,b".data)]]).map renderLine)) =
      ⟨[("h".data)], [[("a,b".data)]]⟩ :=
  parseCSVQuotingAmended [("h".data)] [[("a,b".data)]]
    (by decide) (by decide) (by decide) (by decide) (by decide)

/-! ## Stream de-framer -/

lemma splitDD_ne_nil : ∀ s : Str, splitDD s ≠ [] := by
  intro s
  induction s using splitDD.induct with
  | case1 rest ih => simp [splitDD.eq_1]
  | case2 c rest h ih =>
    rw [splitDD.eq_2 c rest h]
    cases splitDD rest with
    | nil => simp [consHead]
    | cons x xs => simp [consHead]
  | case3 => simp [splitDD.eq_3]

lemma getLastD_irrel : ∀ (l : List Str), l ≠ [] → ∀ d₁ d₂ : Str,
    l.getLastD d₁ = l.getLastD d₂ := by
  intro l
  induction l with
  | nil => intro h; exact absurd rfl h
  | cons x xs ih =>
    intro _ d₁ d₂
    cases xs with
    | nil => rfl
    | cons y ys =>
      have h1 : (x :: y :: ys).getLastD d₁ = (y :: ys).getLastD x := List.getLastD_cons _ _ _
      have h2 : (x :: y :: ys).getLastD d₂ = (y :: ys).getLastD x := List.getLastD_cons _ _ _
      rw [h1, h2]

lemma getLastD_append (X Y : List Str) (hY : Y ≠ []) :
    (X ++ Y).getLastD [] = Y.getLastD [] := by
  induction X with
  | nil => rfl
  | cons x t ih =>
    have hne : t ++ Y ≠ [] := fun e => hY (List.append_eq_nil.mp e).2
    rw [List.cons_append, List.getLastD_cons, getLastD_irrel _ hne x [], ih]

lemma splitDD_join : ∀ s : Str, joinDD (splitDD s) = s := by
  intro s
  induction s using splitDD.induct with
  | case1 rest ih =>
    rw [splitDD.eq_1]
    cases hsp : splitDD rest with
    | nil => exact absurd hsp (splitDD_ne_nil rest)
    | cons x xs =>
      rw [hsp] at ih
      show joinDD ([] :: x :: xs) = '\n' :: '\n' :: rest
      rw [show joinDD ([] :: x :: xs) = [] ++ '\n' :: '\n' :: joinDD (x :: xs) from rfl,
        List.nil_append, ih]
  | case2 c rest h ih =>
    rw [splitDD.eq_2 c rest h]
    cases hsp : splitDD rest with
    | nil => exact absurd hsp (splitDD_ne_nil rest)
    | cons x xs =>
      rw [hsp] at ih
      show joinDD ((c :: x) :: xs) = c :: rest
      cases xs with
      | nil =>
        have hx : x = rest := by simpa [joinDD] using ih
        simp [joinDD, hx]
      | cons y ys =>
        rw [show joinDD ((c :: x) :: y :: ys) = (c :: x) ++ '\n' :: '\n' :: joinDD (y :: ys)
          from rfl]
        rw [show joinDD (x :: y :: ys) = x ++ '\n' :: '\n' :: joinDD (y :: ys) from rfl] at ih
        rw [List.cons_append, ih]
  | case3 => rfl

lemma splitDD_append (a b : Str) :
    splitDD (a ++ b) =
      (splitDD a).dropLast ++ splitDD ((splitDD a).getLastD [] ++ b) := by
  induction a using splitDD.induct with
  | case1 rest ih =>
    rw [List.cons_append, List.cons_append, splitDD.eq_1, splitDD.eq_1, ih]
    cases hsp : splitDD rest with
    | nil => exact absurd hsp (splitDD_ne_nil rest)
    | cons x xs =>
      simp [List.getLastD_cons, List.dropLast_cons_of_ne_nil]
  | case2 c rest h ih =>
    cases rest with
    | nil =>
      rw [splitDD.eq_2 c [] h]
      show splitDD (c :: ([] ++ b)) =
        (consHead c [[]]).dropLast ++ splitDD ((consHead c [[]]).getLastD [] ++ b)
      simp [consHead]
    | cons d t =>
      have h' : ∀ r : Str, c = '\n' → (d :: t) ++ b = '\n' :: r → False := by
        intro r hc he
        rw [List.cons_append] at he
        injection he with hd hrest
        exact h t hc (by rw [hd])
      rw [List.cons_append, splitDD.eq_2 c ((d :: t) ++ b) h', ih,
        splitDD.eq_2 c (d :: t) h]
      cases hsp : splitDD (d :: t) with
      | nil => exact absurd hsp (splitDD_ne_nil _)
      | cons x xs =>
        cases xs with
        | nil =>
          have hx : x = d :: t := by
            have hj := splitDD_join (d :: t)
            rw [hsp] at hj
            simpa [joinDD] using hj
          subst hx
          rw [show consHead c [d :: t] = [c :: d :: t] from rfl,
            show ([d :: t] : List Str).dropLast = [] from rfl,
            show ([c :: d :: t] : List Str).dropLast = [] from rfl,
            show ([d :: t] : List Str).getLastD [] = d :: t from rfl,
            show ([c :: d :: t] : List Str).getLastD [] = c :: d :: t from rfl,
            List.nil_append, List.nil_append,
            show ((c :: d :: t) ++ b : Str) = c :: ((d :: t) ++ b) from rfl,
            splitDD.eq_2 c ((d :: t) ++ b) h']
        | cons y ys =>
          simp only [consHead, List.dropLast_cons_of_ne_nil (List.cons_ne_nil y ys),
            List.getLastD_cons, List.cons_append]
  | case3 =>
    simp [splitDD.eq_3]

lemma foldl_feedChunk : ∀ (cs : List Str), cs ≠ [] → ∀ (acc : List Str) (buf : Str),
    cs.foldl feedChunk (acc, buf) =
      (acc ++ (splitDD (buf ++ cs.flatten)).dropLast,
       (splitDD (buf ++ cs.flatten)).getLastD []) := by
  intro cs
  induction cs with
  | nil => intro h; exact absurd rfl h
  | cons c cs' ih =>
    intro _ acc buf
    cases cs' with
    | nil =>
      show feedChunk (acc, buf) c =
        (acc ++ (splitDD (buf ++ [c].flatten)).dropLast, (splitDD (buf ++ [c].flatten)).getLastD [])
      simp [feedChunk]
    | cons c2 cs'' =>
      rw [List.foldl_cons,
        show feedChunk (acc, buf) c =
          (acc ++ (splitDD (buf ++ c)).dropLast, (splitDD (buf ++ c)).getLastD []) from rfl,
        ih (by simp) _ _,
        show ((c :: c2 :: cs'').flatten : Str) = c ++ (c2 :: cs'').flatten from rfl,
        ← List.append_assoc, splitDD_append (buf ++ c) ((c2 :: cs'').flatten),
        List.dropLast_append_of_ne_nil _ (splitDD_ne_nil _),
        getLastD_append _ _ (splitDD_ne_nil _), ← List.append_assoc]

/-- C6: the de-framer is chunking-invariant.  For every way of splitting the
stream into chunks, the emitted record sequence equals the one obtained from
the unfragmented stream fed in one piece; hence two chunkings with the same
concatenation (in particular, one splitting an event record and the
record-aligned one) emit the same records, the same `data: ` payload sequence,
and the same final session state under every event fold. -/
theorem streamDeframeInvariant (chunks : List Str) :
    deframe chunks = deframe [chunks.flatten] ∧
    payloads chunks = payloads [chunks.flatten] ∧
    (∀ chunks' : List Str, chunks'.flatten = chunks.flatten →
      deframe chunks' = deframe chunks) ∧
    ∀ (σ : Type) (step : σ → Str → σ) (init : σ),
      (payloads chunks).foldl step init = (payloads [chunks.flatten]).foldl step init := by
  have key : ∀ cs : List Str, deframe cs = (splitDD cs.flatten).dropLast := by
    intro cs
    cases cs with
    | nil => rfl
    | cons c cs' =>
      unfold deframe
      rw [foldl_feedChunk (c :: cs') (by simp) [] []]
      simp
  have h1 : deframe chunks = deframe [chunks.flatten] := by
    rw [key chunks, key [chunks.flatten]]
    simp
  refine ⟨h1, by unfold payloads; rw [h1], fun chunks' he => by rw [key chunks', key chunks, he],
    fun σ step init => by unfold payloads; rw [h1]⟩

/-- Witness for C6: a chunk boundary between the two newlines of the first
record's terminator yields the same records as the unfragmented stream. -/
theorem streamDeframeInvariant_witness :
    deframe [("data: a\n".data), ("\ndata: b\n\n".data)] =
      deframe [("data: a\n\ndata: b\n\n".data)] :=
  (streamDeframeInvariant [("data: a\n\ndata: b\n\n".data)]).2.2.1
    [("data: a\n".data), ("\ndata: b\n\n".data)] (by decide)

end OracleMCP
